import Mathlib

/-!
Shallow embedding of the ProjectAURELIUS core logic and verification of its
natural-language specification.

The embedding covers:
* the three Arrhenius-kinetics furnace environments
  (`src/synthesis/furnace.py`, `src/alloys/furnace.py`,
  `src/perovskites/synthesis/furnace.py`), consolidated into one
  parameterised step function with one constant pack per variant;
* the SEI-growth battery environment (`src/alloys/integration/battery.py`);
* the Metropolis composition walker (`src/agent.py`): formula tokenizer,
  site mutation, acceptance rule and the search loop;
* the dopant scoring function (`src/alloys/doping/dopant.py`).

Python floats are modelled as real numbers (`ℝ`); the dopant scoring
function involves only rational arithmetic and is modelled over `ℚ` so that
it stays kernel-computable.  Calls to the process-global random generator
are modelled as explicit inputs (the next uniform draw, the chosen site,
the chosen replacement element).
-/

namespace Aurelius

/-- Scalar `np.clip(x, lo, hi)`: values below `lo` are raised to `lo`,
values above `hi` are lowered to `hi`. -/
noncomputable def clip (lo hi x : ℝ) : ℝ := min hi (max lo x)

theorem clip_le (lo hi x : ℝ) : clip lo hi x ≤ hi := min_le_left _ _

theorem le_clip (lo hi x : ℝ) (h : lo ≤ hi) : lo ≤ clip lo hi x :=
  le_min h (le_max_left _ _)

theorem clip_of_mem (lo hi x : ℝ) (h0 : lo ≤ x) (h1 : x ≤ hi) :
    clip lo hi x = x := by
  unfold clip
  rw [max_eq_right h0, min_eq_right h1]

/-! ### Furnace environments

`VirtualFurnaceEnv` (synthesis), `AlloyFurnaceEnv` (alloys) and
`VirtualFurnaceEnv` (perovskites) share one step shape and differ only in
constants and reward expression; they are embedded as one parameterised
step function over a configuration record. -/

/-- Discrete furnace action: `0 = Cool`, `1 = Hold`, `2 = Heat`. -/
inductive Act where
  | cool : Act
  | hold : Act
  | heat : Act
deriving DecidableEq

/-- Mutable state of a furnace environment: temperature, the three mass
fractions `[precursor, target, waste]`, and the step counter. -/
structure FurnaceState where
  temp : ℝ
  p : ℝ
  t : ℝ
  w : ℝ
  time : ℕ

/-- Constant pack distinguishing the three furnace variants.  `reward`
abstracts the per-variant reward expression, as a function of the computed
`moles_forming`, `moles_burning`, post-update state and done flag. -/
structure FurnaceCfg where
  delta : ℝ
  tLo : ℝ
  tHi : ℝ
  aForm : ℝ
  eaForm : ℝ
  aDeg : ℝ
  eaDeg : ℝ
  dt : ℝ
  maxTime : ℕ
  obsTempDiv : ℝ
  reward : ℝ → ℝ → FurnaceState → Bool → ℝ

/-- Temperature increment requested by an action (`Cool` subtracts
`delta`, `Heat` adds it, `Hold` leaves the temperature unchanged). -/
def FurnaceCfg.bump (c : FurnaceCfg) (a : Act) (T : ℝ) : ℝ :=
  match a with
  | .cool => T - c.delta
  | .hold => T
  | .heat => T + c.delta

/-- Full output of one furnace `step` call: successor state, observation
vector, reward and done flag. -/
structure FurnaceOut where
  state : FurnaceState
  obs : ℝ × ℝ × ℝ × ℝ
  reward : ℝ
  done : Bool

/-- One furnace `step(action)`, translated line by line from the Python:
1. control: move the temperature by the action's increment and clip it to
   the operating bounds; 2. kinetics: Arrhenius rates at the (new, clipped)
   temperature; 3. reaction: mass-balance update, then `np.clip(state,0,1)`;
4. advance the step counter and flag `done`; 5. reward.  The `draw`
argument stands for the next value of the process-global random stream;
the furnace bodies never read it. -/
noncomputable def furnaceStep (c : FurnaceCfg) (s : FurnaceState) (a : Act)
    (draw : ℝ) : FurnaceOut :=
  let T := clip c.tLo c.tHi (c.bump a s.temp)
  let kForm := c.aForm * Real.exp (-c.eaForm / T)
  let kDeg := c.aDeg * Real.exp (-c.eaDeg / T)
  let molesForming := kForm * s.p * c.dt
  let molesBurning := kDeg * s.t * c.dt
  let p' := clip 0 1 (s.p - molesForming)
  let t' := clip 0 1 (s.t + (molesForming - molesBurning))
  let w' := clip 0 1 (s.w + molesBurning)
  let time' := s.time + 1
  let done := decide (c.maxTime ≤ time')
  let s' : FurnaceState := ⟨T, p', t', w', time'⟩
  { state := s'
    obs := (T / c.obsTempDiv, t', w', (time' : ℝ) / (c.maxTime : ℝ))
    reward := c.reward molesForming molesBurning s' done
    done := done }

/-- Phase 1 of a furnace step in isolation: advance and clip the
temperature, leaving the fractions untouched. -/
noncomputable def furnaceAdvanceTemp (c : FurnaceCfg) (s : FurnaceState)
    (a : Act) : FurnaceState :=
  { s with temp := clip c.tLo c.tHi (c.bump a s.temp) }

/-- Phases 2-5 of a furnace step in isolation: kinetics at the state's
current temperature, mass balance, clipping, time/done/reward. -/
noncomputable def furnaceReact (c : FurnaceCfg) (s : FurnaceState) :
    FurnaceOut :=
  let kForm := c.aForm * Real.exp (-c.eaForm / s.temp)
  let kDeg := c.aDeg * Real.exp (-c.eaDeg / s.temp)
  let molesForming := kForm * s.p * c.dt
  let molesBurning := kDeg * s.t * c.dt
  let p' := clip 0 1 (s.p - molesForming)
  let t' := clip 0 1 (s.t + (molesForming - molesBurning))
  let w' := clip 0 1 (s.w + molesBurning)
  let time' := s.time + 1
  let done := decide (c.maxTime ≤ time')
  let s' : FurnaceState := ⟨s.temp, p', t', w', time'⟩
  { state := s'
    obs := (s.temp / c.obsTempDiv, t', w', (time' : ℝ) / (c.maxTime : ℝ))
    reward := c.reward molesForming molesBurning s' done
    done := done }

/-- Modelled from the spec: the step order the specification describes for
the kinetics simulator ("compute both rates at current temperature, apply
mass-balance update, clip all fractions to [0,1], advance temperature by
the action's fixed or continuous increment (clipped to bounds)").  Rates
are taken at the temperature held on entry; the temperature moves last. -/
noncomputable def furnaceStepSpecOrder (c : FurnaceCfg) (s : FurnaceState)
    (a : Act) : FurnaceOut :=
  let kForm := c.aForm * Real.exp (-c.eaForm / s.temp)
  let kDeg := c.aDeg * Real.exp (-c.eaDeg / s.temp)
  let molesForming := kForm * s.p * c.dt
  let molesBurning := kDeg * s.t * c.dt
  let p' := clip 0 1 (s.p - molesForming)
  let t' := clip 0 1 (s.t + (molesForming - molesBurning))
  let w' := clip 0 1 (s.w + molesBurning)
  let T := clip c.tLo c.tHi (c.bump a s.temp)
  let time' := s.time + 1
  let done := decide (c.maxTime ≤ time')
  let s' : FurnaceState := ⟨T, p', t', w', time'⟩
  { state := s'
    obs := (T / c.obsTempDiv, t', w', (time' : ℝ) / (c.maxTime : ℝ))
    reward := c.reward molesForming molesBurning s' done
    done := done }

/-- Constants of `src/synthesis/furnace.py` (`VirtualFurnaceEnv`,
CaGeTe3): ±10 K actions clipped to [300, 1400], `A_form = 50000`,
`Ea_form/R = 13200`, `A_deg = 4e10`, `Ea_deg/R = 27600`, `dt = 1`,
180-step budget; dense reward `delta_yield * 1000` minus a flat 10.0
penalty when the impurity fraction exceeds 0.05, plus a `target * 50`
completion bonus. -/
noncomputable def synthCfg : FurnaceCfg where
  delta := 10
  tLo := 300
  tHi := 1400
  aForm := 50000
  eaForm := 13200
  aDeg := 40000000000
  eaDeg := 27600
  dt := 1
  maxTime := 180
  obsTempDiv := 1500
  reward := fun mf mb s' done =>
    (mf - mb) * 1000 - (if 0.05 < s'.w then (10 : ℝ) else 0) +
      (if done then s'.t * 50 else 0)

/-- Constants of `src/alloys/furnace.py` (`AlloyFurnaceEnv`, Beta-Li3PS4):
±5 K actions clipped to [300, 600], `A_form = 500`, `Ea_form/R = 4000`,
`A_trans = 5e5`, `Ea_trans/R = 9000`, `dt = 1`, 300-step budget; reward
`net_beta * 2000`, minus `moles_decaying * 5000` whenever any Beta decays,
plus a `beta * 50` completion bonus. -/
noncomputable def alloyCfg : FurnaceCfg where
  delta := 5
  tLo := 300
  tHi := 600
  aForm := 500
  eaForm := 4000
  aDeg := 500000
  eaDeg := 9000
  dt := 1
  maxTime := 300
  obsTempDiv := 600
  reward := fun mf mb s' done =>
    (mf - mb) * 2000 - (if 0 < mb then mb * 5000 else 0) +
      (if done then s'.t * 50 else 0)

/-- Constants of `src/perovskites/synthesis/furnace.py`
(`VirtualFurnaceEnv` v8.0, BaZrS3): ±10 K actions clipped to [300, 1600],
`A_form = 50000`, `Ea_form/R = 13200`, `A_deg = 5e9`, `Ea_deg/R = 27600`,
`dt = 1`, 300-step budget; reward `delta_yield * 2000`, minus
`impurity * 50` once the impurity fraction exceeds 0.05, plus a
`target * 50` completion bonus. -/
noncomputable def perovCfg : FurnaceCfg where
  delta := 10
  tLo := 300
  tHi := 1600
  aForm := 50000
  eaForm := 13200
  aDeg := 5000000000
  eaDeg := 27600
  dt := 1
  maxTime := 300
  obsTempDiv := 1600
  reward := fun mf mb s' done =>
    (mf - mb) * 2000 - (if 0.05 < s'.w then s'.w * 50 else 0) +
      (if done then s'.t * 50 else 0)

/-! ### Battery interface environment (`src/alloys/integration/battery.py`)

Continuous action in [0,1] (requested current density), SEI growth with
passivation damping, a hardware governor clamping the applied current to
0.3 while the SEI layer is thinner than 8 nm, stochastic dendrite failure
above the critical current density, and a reward paid on the applied (not
the requested) current. -/

/-- Mutable state of `BatteryInterfaceEnv`: SEI thickness (nm), stored
charge, step counter. -/
structure BatteryState where
  sei : ℝ
  charge : ℝ
  time : ℕ

/-- The current density actually applied in a step (`actual_J`): the
requested action is clipped to [0,1]; while the SEI layer is thinner than
8 nm the hardware restricts the result to at most 0.3. -/
noncomputable def batteryApplied (s : BatteryState) (action : ℝ) : ℝ :=
  let requested := clip 0 1 action
  if s.sei < 8 then min requested 0.3 else requested

/-- SEI growth in one step at applied current `J`: base rate 0.05, growth
factor `1 + 20 J`, exponential passivation damping `exp(-sei/5)`. -/
noncomputable def batteryGrowth (s : BatteryState) (J : ℝ) : ℝ :=
  0.05 * (1 + J * 20) * Real.exp (-s.sei / 5)

/-- Full output of one battery `step` call. -/
structure BatteryOut where
  state : BatteryState
  obs : ℝ × ℝ × ℝ
  reward : ℝ
  done : Prop

/-- One `BatteryInterfaceEnv.step(action)`, translated line by line:
clip the request, apply the sub-8 nm governor, grow the SEI layer, check
dendrite failure (risk 0.05 below 8 nm, 0.001 above, drawn against the
random stream only when the applied current exceeds the critical 0.8) and
choke failure (SEI > 50 nm), pay reward on the applied current with Joule
heating and overshoot penalties, and account the stored charge.  `draw` is
the value `np.random.random()` would return in this step. -/
noncomputable def batteryStep (s : BatteryState) (action : ℝ) (draw : ℝ) :
    BatteryOut :=
  let requested := clip 0 1 action
  let J := batteryApplied s action
  let sei' := s.sei + batteryGrowth s J
  let resistance := sei' * 0.5
  let dendriteFail := 0.8 < J ∧ draw < (if sei' < 8 then 0.05 else 0.001)
  let chokeFail := 50 < sei'
  let rewardBase := J * 15 - J ^ 2 * resistance * 0.5 -
    (if 0 < requested - J then (requested - J) * 1 else 0)
  let reward :=
    if dendriteFail then rewardBase - 500
    else if chokeFail then rewardBase - 100
    else if 200 ≤ s.time then
      (if 0.2 < J then rewardBase - 200 else rewardBase)
    else rewardBase
  let done := dendriteFail ∨ chokeFail ∨ 200 ≤ s.time
  let charge' := s.charge + J * 1
  { state := ⟨sei', charge', s.time + 1⟩
    obs := (sei', sei' * 0.5, charge')
    reward := reward
    done := done }

/-! ### Composition walker (`src/agent.py`)

Formulas are lists of characters.  `parse_formula` is
`re.findall(r'([A-Z][a-z]*)', formula)`: the maximal runs of one capital
letter followed by lower-case letters, scanned left to right.  The
tokenizer is written with explicit fuel so that it is structurally
recursive and kernel-computable. -/

/-- The regex class `[A-Z]` (ASCII code points 65-90). -/
def upperAZ (c : Char) : Bool := 65 ≤ c.toNat && c.toNat ≤ 90

/-- The regex class `[a-z]` (ASCII code points 97-122). -/
def lowerAZ (c : Char) : Bool := 97 ≤ c.toNat && c.toNat ≤ 122

/-- Fuelled tokenizer: at a capital letter, emit the capital together with
the following run of lower-case letters and continue after it; skip any
other character.  One unit of fuel is spent per emitted token or skipped
character, so `length + 1` fuel always suffices. -/
def tokenizeF : ℕ → List Char → List (List Char)
  | 0, _ => []
  | _ + 1, [] => []
  | fuel + 1, c :: cs =>
    if upperAZ c then
      (c :: cs.takeWhile lowerAZ) :: tokenizeF fuel (cs.dropWhile lowerAZ)
    else
      tokenizeF fuel cs

/-- `PerovskiteWalker.parse_formula`: all element tokens of the formula. -/
def parse_formula (f : List Char) : List (List Char) :=
  tokenizeF (f.length + 1) f

/-- `PerovskiteWalker.mutate`, with the randomness explicit: `site` is the
site index drawn from `['A','B','X']` and `pick` the replacement element
drawn from the corresponding palette.  If parsing yields fewer than three
element tokens the current formula is returned unchanged; otherwise the
chosen site is replaced and the first three (possibly substituted) symbols
are concatenated with the stoichiometry suffix `"3"`. -/
def mutate (f : List Char) (site : Fin 3) (pick : List Char) : List Char :=
  let elements := parse_formula f
  if elements.length < 3 then f
  else
    let newElements := elements.set site pick
    newElements.getD 0 [] ++ newElements.getD 1 [] ++
      newElements.getD 2 [] ++ ['3']

/-- Reconstruction step used inside `mutate`:
`f"{new[0]}{new[1]}{new[2]}3"`. -/
def reconstruct3 (elements : List (List Char)) : List Char :=
  elements.getD 0 [] ++ elements.getD 1 [] ++ elements.getD 2 [] ++ ['3']

/-- A well-formed element symbol: nonempty, one capital letter, then only
lower-case letters — exactly the strings `[A-Z][a-z]*` matches whole. -/
def wfSym (sym : List Char) : Bool :=
  match sym with
  | [] => false
  | c :: cs => upperAZ c && cs.all lowerAZ

/-- Metropolis acceptance of `PerovskiteWalker.walk`: with
`diff = score - current_stability`, accept when `diff < 0` or when the
uniform draw is below `exp(-diff / 0.05)` (temperature constant 0.05). -/
def accepts (current score draw : ℝ) : Prop :=
  score - current < 0 ∨ draw < Real.exp (-(score - current) / 0.05)

/-- Walker bookkeeping carried across steps of `walk`: current formula and
stability, best-ever formula and stability. -/
structure WalkerState where
  currentFormula : List Char
  currentStability : ℝ
  bestFormula : List Char
  bestStability : ℝ

/-- `PerovskiteWalker.__init__(start_formula)`: current and best are both
the start formula, scored once by the oracle `g`. -/
noncomputable def walkerInit (g : List Char → ℝ) (start : List Char) :
    WalkerState :=
  ⟨start, g start, start, g start⟩

/-- The random inputs consumed by one iteration of `walk`: mutation site,
replacement element, and the acceptance draw. -/
structure WalkRand where
  site : Fin 3
  pick : List Char
  draw : ℝ

open scoped Classical in
/-- One iteration of the `walk` loop: propose `mutate`, score the
candidate with the oracle, and on acceptance move there, promoting the
candidate to champion when it beats `best_stability`. -/
noncomputable def walkStep (g : List Char → ℝ) (w : WalkerState)
    (r : WalkRand) : WalkerState :=
  let candidate := mutate w.currentFormula r.site r.pick
  let score := g candidate
  if accepts w.currentStability score r.draw then
    { currentFormula := candidate
      currentStability := score
      bestFormula := if score < w.bestStability then candidate
                     else w.bestFormula
      bestStability := if score < w.bestStability then score
                       else w.bestStability }
  else w

/-- The `walk` loop over an explicit list of random inputs, returning the
final walker state together with the scores of all proposed candidates in
order (the `score` column of the history log). -/
noncomputable def walkTrace (g : List Char → ℝ) (w : WalkerState) :
    List WalkRand → WalkerState × List ℝ
  | [] => (w, [])
  | r :: rs =>
    let candidate := mutate w.currentFormula r.site r.pick
    let score := g candidate
    let result := walkTrace g (walkStep g w r) rs
    (result.1, score :: result.2)

/-! ### Dopant scoring function (`src/alloys/doping/dopant.py`)

`RealPhysicsOptimizer.run_experiment` is pure rational arithmetic (the
noise term is an explicit input), so it is embedded over `ℚ` and stays
kernel-computable.  Constants: Shannon radii S 184, Cl 181, Br 196, I 220;
electronegativities S 2.58, Cl 3.16, Br 2.96, I 2.66; base voltage 2.3. -/

/-- `run_experiment([x_Cl, x_Br, x_I])` with the experimental noise draw
passed explicitly: total doping above the solubility limit 1.0 returns the
sentinel 0.0; below 0.01 the pure-material base voltage 2.3; otherwise
base voltage plus the electronegativity-driven gain, minus the strain
penalty (2.0 above strain 300, `0.001 * strain` above 100, else 0), plus
noise. -/
def run_experiment (xCl xBr xI noise : ℚ) : ℚ :=
  let totalDoping := xCl + xBr + xI
  if 1 < totalDoping then 0
  else if totalDoping < 1 / 100 then 23 / 10
  else
    let dCl : ℚ := 316 / 100 - 258 / 100
    let dBr : ℚ := 296 / 100 - 258 / 100
    let dI : ℚ := 266 / 100 - 258 / 100
    let voltageGain := 3 / 2 * (xCl * dCl + xBr * dBr + xI * dI)
    let strainCl : ℚ := (181 - 184) ^ 2
    let strainBr : ℚ := (196 - 184) ^ 2
    let strainI : ℚ := (220 - 184) ^ 2
    let totalStrain := xCl * strainCl + xBr * strainBr + xI * strainI
    let strainPenalty : ℚ :=
      if 300 < totalStrain then 2
      else if 100 < totalStrain then 1 / 1000 * totalStrain
      else 0
    23 / 10 + voltageGain - strainPenalty + noise

/-! ### Helper lemmas -/

/-- The synthesis-furnace formation rate constant is below 1 at any
temperature of at most 412.5 K: `50000 < 2^32 ≤ exp 32 ≤ exp x`. -/
theorem synth_kForm_lt_one {x : ℝ} (hx : 32 ≤ x) :
    50000 * Real.exp (-x) < 1 := by
  have h2 : (2 : ℝ) ≤ Real.exp 1 := by
    have := Real.add_one_le_exp 1
    linarith
  have hexp32 : Real.exp 32 = Real.exp 1 ^ (32 : ℕ) := by
    rw [← Real.exp_nat_mul]
    norm_num
  have hge : (50000 : ℝ) < Real.exp x :=
    calc (50000 : ℝ) < 2 ^ (32 : ℕ) := by norm_num
      _ ≤ Real.exp 1 ^ (32 : ℕ) := pow_le_pow_left₀ (by norm_num) h2 32
      _ = Real.exp 32 := hexp32.symm
      _ ≤ Real.exp x := Real.exp_le_exp.mpr hx
  have h1 : 50000 / Real.exp x < 1 := (div_lt_one (Real.exp_pos x)).mpr hge
  rw [Real.exp_neg, ← div_eq_mul_inv]
  exact h1

theorem furnaceStep_temp (c : FurnaceCfg) (s : FurnaceState) (a : Act)
    (d : ℝ) :
    (furnaceStep c s a d).state.temp = clip c.tLo c.tHi (c.bump a s.temp) :=
  rfl

/-- The first character of a list, if any, fails the predicate `p`;
a tokenizer run of `p`-characters therefore stops exactly there. -/
def headFails (p : Char → Bool) : List Char → Prop
  | [] => True
  | c :: _ => p c = false

instance (p : Char → Bool) (l : List Char) : Decidable (headFails p l) :=
  match l with
  | [] => inferInstanceAs (Decidable True)
  | _ :: _ => inferInstanceAs (Decidable (_ = false))

theorem upperAZ_not_lowerAZ {c : Char} (h : upperAZ c = true) :
    lowerAZ c = false := by
  simp only [upperAZ, lowerAZ, Bool.and_eq_true, decide_eq_true_eq,
    Bool.and_eq_false_iff, decide_eq_false_iff_not] at *
  omega

theorem wfSym_headFails {s : List Char} (r : List Char)
    (h : wfSym s = true) : headFails lowerAZ (s ++ r) := by
  match s with
  | [] => simp [wfSym] at h
  | c :: cs =>
    simp only [wfSym, Bool.and_eq_true] at h
    exact upperAZ_not_lowerAZ h.1

theorem takeWhile_all_append {p : Char → Bool} :
    ∀ (l r : List Char), (∀ c ∈ l, p c = true) → headFails p r →
      (l ++ r).takeWhile p = l ∧ (l ++ r).dropWhile p = r := by
  intro l r hl hr
  induction l with
  | nil =>
    simp only [List.nil_append]
    match r, hr with
    | [], _ => exact ⟨rfl, rfl⟩
    | c :: cs, hr =>
      have hpc : p c = false := hr
      rw [List.takeWhile_cons, List.dropWhile_cons]
      simp [hpc]
  | cons a l ih =>
    have ha : p a = true := hl a (by simp)
    have ih' := ih (fun c hc => hl c (by simp [hc]))
    simp only [List.cons_append, List.takeWhile_cons, List.dropWhile_cons,
      ha, if_true]
    exact ⟨by rw [ih'.1], by rw [ih'.2]⟩

theorem length_dropWhile_le (p : Char → Bool) (l : List Char) :
    (l.dropWhile p).length ≤ l.length := by
  induction l with
  | nil => simp
  | cons a l ih =>
    rw [List.dropWhile_cons]
    by_cases h : p a = true
    · simp only [h, if_true]
      exact Nat.le_trans ih (Nat.le_succ _)
    · simp [h]

/-- The tokenizer result does not depend on the fuel, as long as the fuel
exceeds the input length. -/
theorem tokenizeF_fuel :
    ∀ (f₁ : ℕ) (l : List Char) (f₂ : ℕ), l.length < f₁ → l.length < f₂ →
      tokenizeF f₁ l = tokenizeF f₂ l := by
  intro f₁
  induction f₁ with
  | zero => intro l f₂ h; omega
  | succ f ih =>
    intro l f₂ h1 h2
    match l, f₂ with
    | [], _ + 1 => rfl
    | c :: cs, g + 1 =>
      simp only [tokenizeF]
      by_cases hc : upperAZ c = true
      · simp only [hc, if_true]
        have hd := length_dropWhile_le lowerAZ cs
        have := ih (cs.dropWhile lowerAZ) g (by simp at h1; omega)
          (by simp at h2; omega)
        rw [this]
      · simp only [hc, if_false]
        exact ih cs g (by simp at h1; omega) (by simp at h2; omega)

/-- Emitting one well-formed symbol: the tokenizer splits a well-formed
symbol off the front of the input whenever the remainder does not begin
with a lower-case letter, spending one unit of fuel. -/
theorem tokenizeF_sym_append (fuel : ℕ) {s : List Char} (r : List Char)
    (hs : wfSym s = true) (hr : headFails lowerAZ r) :
    tokenizeF (fuel + 1) (s ++ r) = s :: tokenizeF fuel r := by
  match s with
  | [] => simp [wfSym] at hs
  | c :: cs =>
    simp only [wfSym, Bool.and_eq_true] at hs
    have hall : ∀ x ∈ cs, lowerAZ x = true := by
      intro x hx
      exact List.all_eq_true.mp hs.2 x hx
    have htd := takeWhile_all_append cs r hall hr
    simp only [List.cons_append, tokenizeF, hs.1, if_true, List.append_eq,
      htd.1, htd.2]

/-- `parse_formula` splits a leading well-formed symbol off the formula
whenever the rest does not begin with a lower-case letter. -/
theorem parse_formula_sym_append {s : List Char} (r : List Char)
    (hs : wfSym s = true) (hr : headFails lowerAZ r) :
    parse_formula (s ++ r) = s :: parse_formula r := by
  have hlen : 1 ≤ s.length := by
    match s, hs with
    | c :: cs, _ => simp
  unfold parse_formula
  rw [tokenizeF_sym_append ((s ++ r).length) r hs hr]
  congr 1
  exact tokenizeF_fuel _ r _ (by simp; omega) (by omega)

/-- After any step of any furnace variant, each of the three mass
fractions lies in [0, 1]: they are clipped there unconditionally. -/
theorem furnaceStep_fractions_mem (c : FurnaceCfg) (s : FurnaceState)
    (a : Act) (d : ℝ) :
    (0 ≤ (furnaceStep c s a d).state.p ∧ (furnaceStep c s a d).state.p ≤ 1) ∧
      (0 ≤ (furnaceStep c s a d).state.t ∧
        (furnaceStep c s a d).state.t ≤ 1) ∧
      (0 ≤ (furnaceStep c s a d).state.w ∧
        (furnaceStep c s a d).state.w ≤ 1) :=
  ⟨⟨le_clip _ _ _ (by norm_num), clip_le _ _ _⟩,
    ⟨le_clip _ _ _ (by norm_num), clip_le _ _ _⟩,
    ⟨le_clip _ _ _ (by norm_num), clip_le _ _ _⟩⟩

/-- On the alloy furnace's whole operating range [300, 600] K both
Arrhenius rate constants stay below 1:
`500·exp(-4000/T) ≤ 500·exp(-20/3) < 1` and
`5e5·exp(-9000/T) ≤ 5e5·exp(-15) < 1`. -/
theorem alloy_rates_le_one {T : ℝ} (hT1 : 300 ≤ T) (hT2 : T ≤ 600) :
    (0 ≤ 500 * Real.exp (-4000 / T) ∧ 500 * Real.exp (-4000 / T) ≤ 1) ∧
      0 ≤ 500000 * Real.exp (-9000 / T) ∧
        500000 * Real.exp (-9000 / T) ≤ 1 := by
  have hTpos : (0 : ℝ) < T := by linarith
  have e1 : (2.7182818283 : ℝ) ≤ Real.exp 1 := le_of_lt Real.exp_one_gt_d9
  have e1pos : (0 : ℝ) ≤ 2.7182818283 := by norm_num
  have h6 : (403 : ℝ) ≤ Real.exp 6 := by
    have hp : (2.7182818283 : ℝ) ^ (6 : ℕ) ≤ Real.exp 1 ^ (6 : ℕ) :=
      pow_le_pow_left₀ e1pos e1 6
    have he : Real.exp 6 = Real.exp 1 ^ (6 : ℕ) := by
      rw [← Real.exp_nat_mul]
      norm_num
    rw [he]
    calc (403 : ℝ) ≤ 2.7182818283 ^ (6 : ℕ) := by norm_num
      _ ≤ Real.exp 1 ^ (6 : ℕ) := hp
  have h23 : (5 / 3 : ℝ) ≤ Real.exp (2 / 3) := by
    have := Real.add_one_le_exp ((2 : ℝ) / 3)
    linarith
  have h203 : (500 : ℝ) ≤ Real.exp (20 / 3) := by
    rw [show (20 : ℝ) / 3 = 6 + 2 / 3 by norm_num, Real.exp_add]
    calc (500 : ℝ) ≤ 403 * (5 / 3) := by norm_num
      _ ≤ Real.exp 6 * Real.exp (2 / 3) :=
        mul_le_mul h6 h23 (by norm_num) (le_trans (by norm_num) h6)
  have h15 : (500000 : ℝ) ≤ Real.exp 15 := by
    have hp : (2.7182818283 : ℝ) ^ (15 : ℕ) ≤ Real.exp 1 ^ (15 : ℕ) :=
      pow_le_pow_left₀ e1pos e1 15
    have he : Real.exp 15 = Real.exp 1 ^ (15 : ℕ) := by
      rw [← Real.exp_nat_mul]
      norm_num
    rw [he]
    calc (500000 : ℝ) ≤ 2.7182818283 ^ (15 : ℕ) := by norm_num
      _ ≤ Real.exp 1 ^ (15 : ℕ) := hp
  refine ⟨⟨by positivity, ?_⟩, by positivity, ?_⟩
  · have harg : -4000 / T ≤ -(20 / 3) := by
      rw [neg_div, neg_le_neg_iff, le_div_iff₀ hTpos]
      linarith
    have hmono := Real.exp_le_exp.mpr harg
    rw [Real.exp_neg] at hmono
    have hinv : Real.exp (-4000 / T) ≤ 1 / 500 := by
      apply le_trans hmono
      rw [inv_eq_one_div]
      exact one_div_le_one_div_of_le (by norm_num) h203
    nlinarith [hinv]
  · have harg : -9000 / T ≤ -15 := by
      rw [neg_div, neg_le_neg_iff, le_div_iff₀ hTpos]
      linarith
    have hmono := Real.exp_le_exp.mpr harg
    rw [Real.exp_neg] at hmono
    have hinv : Real.exp (-9000 / T) ≤ 1 / 500000 := by
      apply le_trans hmono
      rw [inv_eq_one_div]
      exact one_div_le_one_div_of_le (by norm_num) h15
    nlinarith [hinv]

/-- In the alloy furnace, mass is exactly conserved and never exceeds the
initial unit budget: from any state with fractions in [0, 1] summing to at
most 1 (as at reset), the fractions after a step again sum to at most 1 —
both rate constants are below 1 on the clipped temperature range, so no
component ever leaves [0, 1] and the clips are the identity. -/
theorem alloy_step_mass_le_one (s : FurnaceState) (a : Act) (d : ℝ)
    (hp : 0 ≤ s.p ∧ s.p ≤ 1) (ht : 0 ≤ s.t ∧ s.t ≤ 1)
    (hw : 0 ≤ s.w ∧ s.w ≤ 1) (hsum : s.p + s.t + s.w ≤ 1) :
    (furnaceStep alloyCfg s a d).state.p +
        (furnaceStep alloyCfg s a d).state.t +
        (furnaceStep alloyCfg s a d).state.w ≤ 1 := by
  set T := clip 300 600 (alloyCfg.bump a s.temp) with hT
  have hT1 : (300 : ℝ) ≤ T := le_clip _ _ _ (by norm_num)
  have hT2 : T ≤ 600 := clip_le _ _ _
  obtain ⟨⟨hkf0, hkf1⟩, hkd0, hkd1⟩ := alloy_rates_le_one hT1 hT2
  set kf := 500 * Real.exp (-4000 / T) with hkf
  set kd := 500000 * Real.exp (-9000 / T) with hkd
  have hA : (furnaceStep alloyCfg s a d).state.p = s.p - kf * s.p * 1 := by
    have h1 : (furnaceStep alloyCfg s a d).state.p =
        clip 0 1 (s.p - kf * s.p * 1) := rfl
    rw [h1, clip_of_mem] <;> nlinarith [hp.1, hp.2, hkf0, hkf1]
  have hB : (furnaceStep alloyCfg s a d).state.t =
      s.t + (kf * s.p * 1 - kd * s.t * 1) := by
    have h1 : (furnaceStep alloyCfg s a d).state.t =
        clip 0 1 (s.t + (kf * s.p * 1 - kd * s.t * 1)) := rfl
    rw [h1, clip_of_mem] <;>
      nlinarith [hp.1, hp.2, ht.1, ht.2, hw.1, hkf0, hkf1, hkd0, hkd1, hsum]
  have hC : (furnaceStep alloyCfg s a d).state.w = s.w + kd * s.t * 1 := by
    have h1 : (furnaceStep alloyCfg s a d).state.w =
        clip 0 1 (s.w + kd * s.t * 1) := rfl
    rw [h1, clip_of_mem] <;>
      nlinarith [hp.1, ht.1, ht.2, hw.1, hw.2, hkd0, hkd1, hsum]
  rw [hA, hB, hC]
  linarith

/-! ### Claim theorems -/

/-- C3: for every state and every action (cool, hold or heat), the
temperature after a step of each furnace variant lies inside that
variant's configured operating bounds ([300, 1400] for the synthesis
furnace, [300, 600] for the alloy furnace, [300, 1600] for the perovskite
furnace), because the control phase clips it there before anything else
happens. -/
theorem claim_C3 (s : FurnaceState) (a : Act) (d : ℝ) :
    (300 ≤ (furnaceStep synthCfg s a d).state.temp ∧
      (furnaceStep synthCfg s a d).state.temp ≤ 1400) ∧
    (300 ≤ (furnaceStep alloyCfg s a d).state.temp ∧
      (furnaceStep alloyCfg s a d).state.temp ≤ 600) ∧
    (300 ≤ (furnaceStep perovCfg s a d).state.temp ∧
      (furnaceStep perovCfg s a d).state.temp ≤ 1600) :=
  ⟨⟨le_clip _ _ _ (by norm_num [synthCfg]), clip_le _ _ _⟩,
    ⟨le_clip _ _ _ (by norm_num [alloyCfg]), clip_le _ _ _⟩,
    ⟨le_clip _ _ _ (by norm_num [perovCfg]), clip_le _ _ _⟩⟩

/-- C4: the walker's Metropolis rule always accepts a candidate scoring
strictly lower than the current stability, and accepts a strictly worse
candidate exactly when the uniform draw falls below
`exp(-(score - current) / 0.05)` with the fixed temperature 0.05. -/
theorem claim_C4 (current score draw : ℝ) :
    (score < current → accepts current score draw) ∧
    (current < score →
      (accepts current score draw ↔
        draw < Real.exp (-(score - current) / 0.05))) := by
  constructor
  · intro h
    exact Or.inl (by linarith)
  · intro h
    constructor
    · rintro (h1 | h2)
      · linarith
      · exact h2
    · exact Or.inr

/-- Witness for C4 at the spec's own example (current 0.10, candidate
0.05) and at a worsening move (current 0.10, candidate 0.20, draw
0.036). -/
theorem claim_C4_witness :
    accepts 0.10 0.05 0.9 ∧
      (accepts 0.10 0.2 0.036 ↔
        (0.036 : ℝ) < Real.exp (-((0.2 : ℝ) - 0.10) / 0.05)) :=
  ⟨(claim_C4 0.10 0.05 0.9).1 (by norm_num),
    (claim_C4 0.10 0.2 0.036).2 (by norm_num)⟩

/-- C5: any composition whose components sum to strictly more than the
solubility limit 1.0 makes `run_experiment` return exactly the sentinel
0.0, whatever the individual components and the noise draw are. -/
theorem claim_C5 (xCl xBr xI noise : ℚ) (h : 1 < xCl + xBr + xI) :
    run_experiment xCl xBr xI noise = 0 := by
  simp only [run_experiment]
  rw [if_pos h]

/-- Witness for C5 at the spec's example: a composition summing to 1.5
scores 0.0, with a nonzero noise draw. -/
theorem claim_C5_witness :
    (1 : ℚ) < 1 / 2 + 1 / 2 + 1 / 2 ∧
      run_experiment (1 / 2) (1 / 2) (1 / 2) (37 / 1000) = 0 :=
  ⟨by norm_num, claim_C5 (1 / 2) (1 / 2) (1 / 2) (37 / 1000) (by norm_num)⟩

/-- C7: when the current formula parses into fewer than three element
tokens, `mutate` is a no-op returning the formula unchanged, for every
choice of mutation site and replacement element. -/
theorem claim_C7 (f : List Char) (site : Fin 3) (pick : List Char)
    (h : (parse_formula f).length < 3) : mutate f site pick = f := by
  simp only [mutate]
  rw [if_pos h]

/-- Witness for C7: `"Ba3"` parses to the single token `"Ba"`, so mutation
leaves it untouched. -/
theorem claim_C7_witness :
    (parse_formula ['B', 'a', '3']).length < 3 ∧
      mutate ['B', 'a', '3'] 0 ['S'] = ['B', 'a', '3'] :=
  ⟨by decide, claim_C7 ['B', 'a', '3'] 0 ['S'] (by decide)⟩

/-- C6: a valid three-site formula — three well-formed element symbols
followed by the stoichiometry suffix `"3"` — parses to exactly its three
element symbols, and reconstructing from them as `mutate` does (first
three parsed symbols concatenated, then `"3"`) returns the original
formula string. -/
theorem claim_C6 (a b x : List Char) (ha : wfSym a = true)
    (hb : wfSym b = true) (hx : wfSym x = true) :
    parse_formula (a ++ b ++ x ++ ['3']) = [a, b, x] ∧
      reconstruct3 (parse_formula (a ++ b ++ x ++ ['3'])) =
        a ++ b ++ x ++ ['3'] := by
  have h3 : headFails lowerAZ ['3'] := by decide
  have hassoc : a ++ b ++ x ++ ['3'] = a ++ (b ++ (x ++ ['3'])) := by
    simp [List.append_assoc]
  have hp : parse_formula (a ++ b ++ x ++ ['3']) = [a, b, x] := by
    rw [hassoc,
      parse_formula_sym_append (b ++ (x ++ ['3'])) ha
        (wfSym_headFails _ hb),
      parse_formula_sym_append (x ++ ['3']) hb (wfSym_headFails _ hx),
      parse_formula_sym_append ['3'] hx h3]
    rfl
  refine ⟨hp, ?_⟩
  rw [hp]
  simp [reconstruct3, List.append_assoc]

/-- Witness for C6 at the seed formula `"BaHfS3"`. -/
theorem claim_C6_witness :
    parse_formula (['B', 'a'] ++ ['H', 'f'] ++ ['S'] ++ ['3']) =
        [['B', 'a'], ['H', 'f'], ['S']] ∧
      reconstruct3 (parse_formula (['B', 'a'] ++ ['H', 'f'] ++ ['S'] ++ ['3'])) =
        ['B', 'a'] ++ ['H', 'f'] ++ ['S'] ++ ['3'] :=
  claim_C6 ['B', 'a'] ['H', 'f'] ['S'] (by decide) (by decide) (by decide)

/-- Induction workhorse for C10: along any run of the walk loop, if the
walker state is consistent (champion no worse than current, both scored by
the oracle), then the final champion score is the running minimum of the
starting champion score and all proposed candidate scores, the final
champion formula attains it, and consistency is preserved. -/
theorem walkTrace_min (g : List Char → ℝ) (rs : List WalkRand) :
    ∀ w : WalkerState,
      w.bestStability ≤ w.currentStability →
      g w.bestFormula = w.bestStability →
      g w.currentFormula = w.currentStability →
      (walkTrace g w rs).1.bestStability =
          (walkTrace g w rs).2.foldl min w.bestStability ∧
        g (walkTrace g w rs).1.bestFormula =
          (walkTrace g w rs).1.bestStability ∧
        (walkTrace g w rs).1.bestStability ≤
          (walkTrace g w rs).1.currentStability ∧
        g (walkTrace g w rs).1.currentFormula =
          (walkTrace g w rs).1.currentStability := by
  induction rs with
  | nil =>
    intro w h1 h2 h3
    exact ⟨rfl, h2, h1, h3⟩
  | cons r rs ih =>
    intro w h1 h2 h3
    simp only [walkTrace, List.foldl_cons]
    by_cases hacc :
        accepts w.currentStability (g (mutate w.currentFormula r.site r.pick))
          r.draw
    · -- move accepted: current jumps to the candidate, champion becomes
      -- the minimum of old champion and candidate score
      have hstep : walkStep g w r =
          { currentFormula := mutate w.currentFormula r.site r.pick
            currentStability := g (mutate w.currentFormula r.site r.pick)
            bestFormula :=
              if g (mutate w.currentFormula r.site r.pick) < w.bestStability
              then mutate w.currentFormula r.site r.pick else w.bestFormula
            bestStability :=
              if g (mutate w.currentFormula r.site r.pick) < w.bestStability
              then g (mutate w.currentFormula r.site r.pick)
              else w.bestStability } := by
        simp only [walkStep]
        rw [if_pos hacc]
      by_cases hlt :
          g (mutate w.currentFormula r.site r.pick) < w.bestStability
      · have hbs : (walkStep g w r).bestStability =
            min w.bestStability (g (mutate w.currentFormula r.site r.pick)) := by
          rw [hstep]
          simp only [if_pos hlt]
          exact (min_eq_right (le_of_lt hlt)).symm
        have h1' : (walkStep g w r).bestStability ≤
            (walkStep g w r).currentStability := by
          rw [hstep]
          simp only [if_pos hlt]
          exact le_refl _
        have h2' : g (walkStep g w r).bestFormula =
            (walkStep g w r).bestStability := by
          rw [hstep]; simp only [if_pos hlt]
        have h3' : g (walkStep g w r).currentFormula =
            (walkStep g w r).currentStability := by
          rw [hstep]
        have := ih (walkStep g w r) h1' h2' h3'
        rw [hbs] at this
        exact this
      · have hbs : (walkStep g w r).bestStability =
            min w.bestStability (g (mutate w.currentFormula r.site r.pick)) := by
          rw [hstep]
          simp only [if_neg hlt]
          exact (min_eq_left (not_lt.mp hlt)).symm
        have h1' : (walkStep g w r).bestStability ≤
            (walkStep g w r).currentStability := by
          rw [hstep]
          simp only [if_neg hlt]
          exact not_lt.mp hlt
        have h2' : g (walkStep g w r).bestFormula =
            (walkStep g w r).bestStability := by
          rw [hstep]; simp only [if_neg hlt]; exact h2
        have h3' : g (walkStep g w r).currentFormula =
            (walkStep g w r).currentStability := by
          rw [hstep]
        have := ih (walkStep g w r) h1' h2' h3'
        rw [hbs] at this
        exact this
    · -- move rejected: the state is unchanged and the rejected candidate
      -- scored no better than the current stability, hence no better than
      -- the champion
      have hstep : walkStep g w r = w := by
        simp only [walkStep]
        rw [if_neg hacc]
      have hge : w.currentStability ≤
          g (mutate w.currentFormula r.site r.pick) := by
        by_contra hcon
        exact hacc (Or.inl (by linarith [not_le.mp hcon]))
      have hmin : min w.bestStability
          (g (mutate w.currentFormula r.site r.pick)) = w.bestStability :=
        min_eq_left (le_trans h1 hge)
      rw [hstep, hmin]
      exact ih w h1 h2 h3

/-- C10: after a `walk` run over any sequence of random inputs,
`best_stability` equals the minimum of the start formula's stability and
the scores of all proposed candidates, and `best_formula` attains that
minimum — even though the champion is only re-examined on accepted moves. -/
theorem claim_C10 (g : List Char → ℝ) (start : List Char)
    (rs : List WalkRand) :
    (walkTrace g (walkerInit g start) rs).1.bestStability =
        (walkTrace g (walkerInit g start) rs).2.foldl min (g start) ∧
      g (walkTrace g (walkerInit g start) rs).1.bestFormula =
        (walkTrace g (walkerInit g start) rs).1.bestStability := by
  have h := walkTrace_min g rs (walkerInit g start) (le_refl _) rfl rfl
  exact ⟨h.1, h.2.1⟩

/-- C1 (amended): every furnace step factors as temperature control first
— advance the temperature by the action's increment and clip it to bounds
— followed by kinetics, mass balance and fraction clipping evaluated at
the post-update temperature.  The Arrhenius rates of a step therefore use
the temperature as already changed by that same step's action. -/
theorem claim_C1_amended (c : FurnaceCfg) (s : FurnaceState) (a : Act)
    (d : ℝ) :
    furnaceStep c s a d = furnaceReact c (furnaceAdvanceTemp c s a) := rfl

/-- Counterexample to C1 as stated: starting the synthesis furnace at
400 K with fresh precursor and heating, the step implemented by the code
(rates at the moved temperature 410 K) differs from the spec's order
(rates at the entry temperature 400 K) — the produced target fraction is
`50000·exp(-13200/410)` in one and `50000·exp(-33)` in the other. -/
theorem claim_C1_counterexample :
    furnaceStep synthCfg ⟨400, 1, 0, 0, 0⟩ Act.heat 0 ≠
      furnaceStepSpecOrder synthCfg ⟨400, 1, 0, 0, 0⟩ Act.heat := by
  have hc : clip 300 1400 ((400 : ℝ) + 10) = 410 := by
    rw [clip_of_mem 300 1400 ((400 : ℝ) + 10) (by norm_num) (by norm_num)]
    norm_num
  have hL : (furnaceStep synthCfg ⟨400, 1, 0, 0, 0⟩ Act.heat 0).state.t =
      clip 0 1 ((0 : ℝ) +
        (50000 * Real.exp (-(13200 : ℝ) / clip 300 1400 ((400 : ℝ) + 10)) *
            1 * 1 -
          40000000000 *
              Real.exp (-(27600 : ℝ) / clip 300 1400 ((400 : ℝ) + 10)) *
            0 * 1)) := rfl
  rw [hc] at hL
  have hL2 : (furnaceStep synthCfg ⟨400, 1, 0, 0, 0⟩ Act.heat 0).state.t =
      clip 0 1 (50000 * Real.exp (-(13200 : ℝ) / 410)) := by
    rw [hL]
    congr 1
    ring
  have hR : (furnaceStepSpecOrder synthCfg ⟨400, 1, 0, 0, 0⟩
        Act.heat).state.t =
      clip 0 1 ((0 : ℝ) +
        (50000 * Real.exp (-(13200 : ℝ) / 400) * 1 * 1 -
          40000000000 * Real.exp (-(27600 : ℝ) / 400) * 0 * 1)) := rfl
  have hR2 : (furnaceStepSpecOrder synthCfg ⟨400, 1, 0, 0, 0⟩
        Act.heat).state.t =
      clip 0 1 (50000 * Real.exp (-(33 : ℝ))) := by
    rw [hR, show (-(13200 : ℝ) / 400) = -(33 : ℝ) by norm_num]
    congr 1
    ring
  have hb1 : (0 : ℝ) ≤ 50000 * Real.exp (-(13200 : ℝ) / 410) := by positivity
  have hb2 : 50000 * Real.exp (-(13200 : ℝ) / 410) ≤ 1 := by
    rw [neg_div]
    exact le_of_lt (synth_kForm_lt_one (by norm_num))
  have hb3 : (0 : ℝ) ≤ 50000 * Real.exp (-(33 : ℝ)) := by positivity
  have hb4 : 50000 * Real.exp (-(33 : ℝ)) ≤ 1 :=
    le_of_lt (synth_kForm_lt_one (by norm_num))
  intro h
  have ht : (furnaceStep synthCfg ⟨400, 1, 0, 0, 0⟩ Act.heat 0).state.t =
      (furnaceStepSpecOrder synthCfg ⟨400, 1, 0, 0, 0⟩ Act.heat).state.t :=
    congrArg (fun o => o.state.t) h
  rw [hL2, hR2, clip_of_mem _ _ _ hb1 hb2, clip_of_mem _ _ _ hb3 hb4] at ht
  have hcancel := mul_left_cancel₀ (show (50000 : ℝ) ≠ 0 by norm_num) ht
  rw [Real.exp_eq_exp] at hcancel
  norm_num at hcancel

/-- C8 (amended): the furnace variants' step is a pure function of state
and action — the random stream value is ignored, so any two draws give
identical full outputs (state, observation, reward, done) — and the
battery step's successor state and observation are likewise independent of
the draw; only the battery reward and done flag consult it (for dendrite
failure when the applied current exceeds the critical density). -/
theorem claim_C8_amended :
    (∀ (c : FurnaceCfg) (s : FurnaceState) (a : Act) (d d' : ℝ),
        furnaceStep c s a d = furnaceStep c s a d') ∧
      (∀ (s : BatteryState) (action d d' : ℝ),
        (batteryStep s action d).state = (batteryStep s action d').state ∧
          (batteryStep s action d).obs = (batteryStep s action d').obs) :=
  ⟨fun _ _ _ _ _ => rfl, fun _ _ _ _ => ⟨rfl, rfl⟩⟩

/-- Counterexample to C8 as stated: the battery step is not a pure
function of state and action.  From SEI thickness 10 nm with requested
current 0.9 (above the critical 0.8), the random draw decides dendrite
failure: draw 0.0005 ends the episode, draw 0.5 does not, so two
invocations from identical states with identical actions differ. -/
theorem claim_C8_counterexample :
    (batteryStep ⟨10, 0, 0⟩ 0.9 0.0005).done ∧
      ¬(batteryStep ⟨10, 0, 0⟩ 0.9 0.5).done ∧
      batteryStep ⟨10, 0, 0⟩ 0.9 0.0005 ≠ batteryStep ⟨10, 0, 0⟩ 0.9 0.5 := by
  have hJ : batteryApplied ⟨10, 0, 0⟩ 0.9 = 0.9 := by
    show (if (10 : ℝ) < 8 then min (clip 0 1 0.9) 0.3 else clip 0 1 0.9) =
      0.9
    rw [if_neg (by norm_num : ¬(10 : ℝ) < 8)]
    exact clip_of_mem 0 1 0.9 (by norm_num) (by norm_num)
  have hgrow0 : 0 ≤ batteryGrowth ⟨10, 0, 0⟩ 0.9 := by
    show 0 ≤ 0.05 * (1 + 0.9 * 20) * Real.exp (-(10 : ℝ) / 5)
    positivity
  have hgrow1 : batteryGrowth ⟨10, 0, 0⟩ 0.9 ≤ 0.95 := by
    show 0.05 * (1 + 0.9 * 20) * Real.exp (-(10 : ℝ) / 5) ≤ 0.95
    have he : Real.exp (-(10 : ℝ) / 5) ≤ 1 :=
      Real.exp_le_one_iff.mpr (by norm_num)
    nlinarith [Real.exp_pos (-(10 : ℝ) / 5)]
  have hX : (batteryStep ⟨10, 0, 0⟩ 0.9 0.0005).done := by
    show (0.8 < batteryApplied ⟨10, 0, 0⟩ 0.9 ∧
        (0.0005 : ℝ) <
          (if (10 : ℝ) + batteryGrowth ⟨10, 0, 0⟩
              (batteryApplied ⟨10, 0, 0⟩ 0.9) < 8 then (0.05 : ℝ)
            else 0.001)) ∨
      50 < (10 : ℝ) + batteryGrowth ⟨10, 0, 0⟩
        (batteryApplied ⟨10, 0, 0⟩ 0.9) ∨
      200 ≤ (0 : ℕ)
    rw [hJ]
    left
    refine ⟨by norm_num, ?_⟩
    rw [if_neg (by intro hcon; linarith)]
    norm_num
  have hY : ¬(batteryStep ⟨10, 0, 0⟩ 0.9 0.5).done := by
    show ¬((0.8 < batteryApplied ⟨10, 0, 0⟩ 0.9 ∧
        (0.5 : ℝ) <
          (if (10 : ℝ) + batteryGrowth ⟨10, 0, 0⟩
              (batteryApplied ⟨10, 0, 0⟩ 0.9) < 8 then (0.05 : ℝ)
            else 0.001)) ∨
      50 < (10 : ℝ) + batteryGrowth ⟨10, 0, 0⟩
        (batteryApplied ⟨10, 0, 0⟩ 0.9) ∨
      200 ≤ (0 : ℕ))
    rw [hJ]
    rintro (⟨_, hd⟩ | hck | htm)
    · split_ifs at hd <;> norm_num at hd
    · linarith
    · omega
  refine ⟨hX, hY, ?_⟩
  intro h
  have hd : (batteryStep ⟨10, 0, 0⟩ 0.9 0.0005).done =
      (batteryStep ⟨10, 0, 0⟩ 0.9 0.5).done := congrArg BatteryOut.done h
  exact hY (hd ▸ hX)

/-- The reward a battery step pays when no dendrite failure occurs:
applied current times 15, minus half the Joule heating
`J² · resistance`, minus the overshoot penalty when the request exceeded
the applied current, minus 100 on choke failure, minus 200 at the episode
budget when still charging above 0.2.  This is the source's reward
expression with the dendrite branch removed. -/
noncomputable def batteryRewardNoDendrite (s : BatteryState) (action : ℝ) :
    ℝ :=
  let requested := clip 0 1 action
  let J := batteryApplied s action
  let sei' := s.sei + batteryGrowth s J
  let base := J * 15 - J ^ 2 * (sei' * 0.5) * 0.5 -
    (if 0 < requested - J then (requested - J) * 1 else 0)
  if 50 < sei' then base - 100
  else if 200 ≤ s.time then (if 0.2 < J then base - 200 else base)
  else base

/-- C9: while the SEI layer is thinner than 8 nm, the applied current of a
step never exceeds 0.3 regardless of the requested action; the SEI growth,
stored charge, done flag (dendrite failure is then impossible) and reward
— including the penalty on any requested excess — are all computed from
that clamped applied current. -/
theorem claim_C9 (s : BatteryState) (action draw : ℝ) (h : s.sei < 8) :
    batteryApplied s action ≤ 0.3 ∧
      (batteryStep s action draw).state.sei =
        s.sei + batteryGrowth s (batteryApplied s action) ∧
      (batteryStep s action draw).state.charge =
        s.charge + batteryApplied s action * 1 ∧
      ((batteryStep s action draw).done ↔
        (50 < s.sei + batteryGrowth s (batteryApplied s action) ∨
          200 ≤ s.time)) ∧
      (batteryStep s action draw).reward = batteryRewardNoDendrite s action := by
  have hJle : batteryApplied s action ≤ 0.3 := by
    show (if s.sei < 8 then min (clip 0 1 action) 0.3 else clip 0 1 action) ≤
      0.3
    rw [if_pos h]
    exact min_le_right _ _
  have hnd : ¬(0.8 < batteryApplied s action ∧
      draw < (if s.sei + batteryGrowth s (batteryApplied s action) < 8 then
        (0.05 : ℝ) else 0.001)) := by
    rintro ⟨h8, _⟩
    linarith
  refine ⟨hJle, rfl, rfl, ?_, ?_⟩
  · have hdone : (batteryStep s action draw).done =
        ((0.8 < batteryApplied s action ∧
          draw < (if s.sei + batteryGrowth s (batteryApplied s action) < 8
            then (0.05 : ℝ) else 0.001)) ∨
          50 < s.sei + batteryGrowth s (batteryApplied s action) ∨
          200 ≤ s.time) := rfl
    rw [hdone]
    constructor
    · rintro (hd | hrest)
      · exact absurd hd hnd
      · exact hrest
    · exact Or.inr
  · simp only [batteryStep, batteryRewardNoDendrite]
    rw [if_neg hnd]

/-- Witness for C9 from the reset state (SEI 2 nm) with the maximal
request 1.0 and an arbitrary draw: the governor clamps to 0.3 and every
step output follows the clamped current. -/
theorem claim_C9_witness :
    (2 : ℝ) < 8 ∧
      (batteryApplied ⟨2, 0, 0⟩ 1 ≤ 0.3 ∧
        (batteryStep ⟨2, 0, 0⟩ 1 0.7).state.sei =
          2 + batteryGrowth ⟨2, 0, 0⟩ (batteryApplied ⟨2, 0, 0⟩ 1) ∧
        (batteryStep ⟨2, 0, 0⟩ 1 0.7).state.charge =
          0 + batteryApplied ⟨2, 0, 0⟩ 1 * 1 ∧
        ((batteryStep ⟨2, 0, 0⟩ 1 0.7).done ↔
          (50 < 2 + batteryGrowth ⟨2, 0, 0⟩ (batteryApplied ⟨2, 0, 0⟩ 1) ∨
            200 ≤ (0 : ℕ))) ∧
        (batteryStep ⟨2, 0, 0⟩ 1 0.7).reward =
          batteryRewardNoDendrite ⟨2, 0, 0⟩ 1) :=
  ⟨by norm_num, claim_C9 ⟨2, 0, 0⟩ 1 0.7 (by norm_num)⟩

end Aurelius
